import Mathlib

/-!
Verification of the tracey workspace engine against its specification.

Shallow embedding of the Rust sources:
- `crates/tracey-core/src/positions.rs` (byte offsets, spans, line starts)
- `crates/tracey-core/src/markdown.rs` (code mask, dedent)
- `crates/tracey/src/daemon/mod.rs` (watcher classification, startup, idle loop)
- `crates/tracey/src/bridge/lsp.rs` (rename edits)

Strings are modelled byte-wise as `List Nat` where byte-level behaviour
matters (markdown mask, line starts) and as `List Char` where the Rust code
works on ASCII text (rename scanning); `usize` is `Nat` with an explicit
`2 ^ 64` bound where the Rust code uses checked arithmetic.
-/

namespace Tracey

/-! ## Generic list helpers -/

/-- First index at which `pat` occurs as a contiguous sublist of `l`
(Rust `str::find`); `some 0` for the empty pattern, as in Rust. -/
def findSub (pat : List Char) : List Char → Option Nat
  | [] => if pat.isEmpty then some 0 else none
  | c :: rest =>
    if pat.isPrefixOf (c :: rest) then some 0
    else (findSub pat rest).map (· + 1)

/-- Whether `pat` occurs as a contiguous sublist of `l`
(Rust `str::contains`). -/
def occursIn (pat : List Char) (l : List Char) : Bool :=
  (findSub pat l).isSome

/-! ## Positions (`crates/tracey-core/src/positions.rs`) -/

/-- Number of values of the 64-bit `usize` type. -/
def USIZE : Nat := 2 ^ 64

/-- Rust `usize::checked_add`: `none` models overflow. -/
def checkedAdd (a b : Nat) : Option Nat :=
  if a + b < USIZE then some (a + b) else none

/-- Rust `usize::checked_sub`: `none` models underflow. -/
def checkedSub (a b : Nat) : Option Nat :=
  if b ≤ a then some (a - b) else none

/-- `ByteOffset::add`: checked addition whose `expect` panic is modelled as
`none`. -/
def byteOffsetAdd (o amount : Nat) : Option Nat :=
  checkedAdd o amount

/-- `ByteLength::from_inclusive_bounds`: `end_inclusive - start + 1` with
checked subtraction and addition; the `expect` panic is `none`. -/
def fromInclusiveBounds (start endIncl : Nat) : Option Nat :=
  (checkedSub endIncl start).bind (fun delta => checkedAdd delta 1)

/-- A byte span as `(offset, length)`. -/
structure ByteSpan where
  offset : Nat
  length : Nat
deriving DecidableEq, Repr

/-- `ByteSpan::from_relative_indices`: offset is `base + start`, length from
inclusive bounds; any checked-arithmetic panic is `none`. -/
def from_relative_indices (base start endIncl : Nat) : Option ByteSpan :=
  match byteOffsetAdd base start, fromInclusiveBounds start endIncl with
  | some o, some l => some ⟨o, l⟩
  | _, _ => none

/-- Byte positions of newline bytes in `content`
(Rust `content.match_indices('\n')`, first components). -/
def nlPositions : List Nat → List Nat
  | [] => []
  | b :: rest =>
    (if b = 10 then [0] else []) ++ (nlPositions rest).map (· + 1)

/-- `LineStarts::from_content`: offset `0` followed by one-past each
newline byte. -/
def lineStartsFromContent (content : List Nat) : List Nat :=
  0 :: (nlPositions content).map (· + 1)

/-- Result of Rust `slice::binary_search`: `found i` is `Ok(i)`,
`missing i` is `Err(i)` (insertion point). -/
inductive SearchOutcome where
  | found (i : Nat)
  | missing (i : Nat)
deriving DecidableEq, Repr

/-- The loop of Rust `slice::binary_search`, with explicit fuel
(`fuel ≥ right - left` makes it total; `bsearch` supplies enough). -/
def bsearchGo (l : List Nat) (t : Nat) : Nat → Nat → Nat → SearchOutcome
  | 0, left, _ => .missing left
  | fuel + 1, left, right =>
    if left < right then
      let mid := left + (right - left) / 2
      let v := l.getD mid 0
      if v < t then bsearchGo l t fuel (mid + 1) right
      else if t < v then bsearchGo l t fuel left mid
      else .found mid
    else .missing left

/-- Rust `slice::binary_search` over the whole list. -/
def bsearch (l : List Nat) (t : Nat) : SearchOutcome :=
  bsearchGo l t l.length 0 l.length

/-- `LineStarts::line_number_for_offset`: `Ok(i)` gives the 1-based line
`i + 1` (`from_zero_based`), `Err(i)` gives `i` (`from_one_based`). -/
def lineNumberForOffset (starts : List Nat) (o : Nat) : Nat :=
  match bsearch starts o with
  | .found i => i + 1
  | .missing i => i

/-! ## Markdown mask (`crates/tracey-core/src/markdown.rs`) -/

/-- Rust `str::split_inclusive('\n')` at the byte level: segments each
terminated by a newline byte, the last possibly unterminated; the empty
text yields no segments. -/
def splitInclusive : List Nat → List (List Nat)
  | [] => []
  | b :: rest =>
    if b = 10 then [b] :: splitInclusive rest
    else
      match splitInclusive rest with
      | [] => [[b]]
      | l :: ls => (b :: l) :: ls

/-- `line.strip_suffix('\n').unwrap_or(line)`. -/
def contentOf (line : List Nat) : List Nat :=
  if line.getLast? = some 10 then line.dropLast else line

/-- ASCII whitespace bytes; `content.trim().is_empty()` on a blank line only
involves these (multi-byte Unicode whitespace is outside the byte model and
does not affect the proved index-map properties, which hold for every
`min_indent`). -/
def isWsByte (b : Nat) : Bool :=
  b = 32 || b = 9 || b = 10 || b = 13 || b = 11 || b = 12

/-- Space or tab, the bytes removed by dedenting. -/
def isIndentByte (b : Nat) : Bool :=
  b = 32 || b = 9

/-- The `min_indent` computation of `dedent_with_index_map`: over
non-blank lines (newline stripped), the least count of leading
space/tab bytes; `0` when there is no such line. -/
def minIndentOf (lines : List (List Nat)) : Nat :=
  let vals := lines.filterMap (fun line =>
    let c := contentOf line
    if c.all isWsByte then none
    else some ((c.takeWhile isIndentByte).length))
  (vals.min?).getD 0

/-- Per-line removal count: leading space/tab bytes, but at most
`min_indent` (the `while remove < min_indent && …` loop). -/
def removeCount (minIndent : Nat) (line : List Nat) : Nat :=
  ((line.take minIndent).takeWhile isIndentByte).length

/-- The per-line loop of `dedent_with_index_map`: at base offset `base`,
push `line[remove..]` onto the normalized text and the original indices
`base + remove .. base + line.len()` onto the index map. -/
def dedentGo (minIndent : Nat) : Nat → List (List Nat) → List Nat × List Nat
  | _, [] => ([], [])
  | base, line :: rest =>
    let remove := removeCount minIndent line
    (line.drop remove ++ (dedentGo minIndent (base + line.length) rest).1,
     List.range' (base + remove) (line.length - remove)
       ++ (dedentGo minIndent (base + line.length) rest).2)

/-- `dedent_with_index_map` from `markdown.rs`: returns
`(normalized, index_map)`.  `ByteOffset::add` overflow cannot occur in the
`Nat` model. -/
def dedent_with_index_map (text : List Nat) : List Nat × List Nat :=
  let lines := splitInclusive text
  dedentGo (minIndentOf lines) 0 lines

/-- `pulldown_cmark::CodeBlockKind`, carrying only fenced/indented. -/
inductive CodeBlockKind where
  | fenced
  | indented
deriving DecidableEq

/-- The `pulldown_cmark` events the mask loop distinguishes; all other
events are `other`. -/
inductive MdEvent where
  /-- `Event::Code(_)`: an inline code span. -/
  | code
  /-- `Event::Start(Tag::CodeBlock(kind))`. -/
  | startCodeBlock (kind : CodeBlockKind)
  /-- `Event::End(TagEnd::CodeBlock)`. -/
  | endCodeBlock
  | other
deriving DecidableEq

/-- The `should_mark` match of `markdown_code_mask`: given the current
`in_fenced_code_block` flag, whether to mark this event's range and the
updated flag. -/
def shouldMark (ev : MdEvent) (inFenced : Bool) : Bool × Bool :=
  match ev with
  | .code => (true, inFenced)
  | .startCodeBlock .fenced => (true, true)
  | .startCodeBlock .indented => (false, inFenced)
  | .endCodeBlock => (inFenced, false)
  | .other => (inFenced, inFenced)

/-- Mark one normalized index: translate through the index map and set the
mask slot when both lookups succeed (`index_map.get` / `mask.get_mut`);
`List.set` is a no-op out of bounds, like the failed `get_mut`. -/
def markIdx (indexMap : List Nat) (mask : List Bool) (nIdx : Nat) :
    List Bool :=
  match indexMap[nIdx]? with
  | some oIdx => mask.set oIdx true
  | none => mask

/-- Mark every normalized index in `[start, stop)`. -/
def markRange (indexMap : List Nat) (mask : List Bool) (start stop : Nat) :
    List Bool :=
  (List.range' start (stop - start)).foldl (markIdx indexMap) mask

/-- Process one `(event, range)` pair of the mask loop. -/
def applyEvent (indexMap : List Nat) (st : List Bool × Bool)
    (ev : MdEvent × Nat × Nat) : List Bool × Bool :=
  (if (shouldMark ev.1 st.2).1 then markRange indexMap st.1 ev.2.1 ev.2.2
   else st.1,
   (shouldMark ev.1 st.2).2)

/-- `markdown_code_mask` from `markdown.rs`, with the third-party
`pulldown_cmark` parse of the normalized text abstracted as the list
`events` of `(event, start, stop)` offset pairs it yields. -/
def markdown_code_mask (text : List Nat)
    (events : List (MdEvent × Nat × Nat)) : List Bool :=
  let indexMap := (dedent_with_index_map text).2
  (events.foldl (applyEvent indexMap)
    (List.replicate text.length false, false)).1

/-- `is_code_index` from `markdown.rs`. -/
def is_code_index (index : Nat) (codeMask : List Bool) : Bool :=
  (codeMask[index]?).getD false

/-! ## Rename edits (`crates/tracey/src/bridge/lsp.rs`) -/

/-- Reference verbs. -/
inductive RefVerb where
  | define
  | impl
  | verify
  | depends
  | related
deriving DecidableEq, Repr

/-- A rule identifier: dotted lowercase base plus version (default 1). -/
structure RuleId where
  base : List Char
  version : Nat
deriving DecidableEq, Repr

/-- Decimal digits of `n`, least fuel-checked (fuel `n + 1` always
suffices). -/
def natCharsGo : Nat → Nat → List Char
  | 0, _ => []
  | fuel + 1, n =>
    if n < 10 then [Char.ofNat (48 + n)]
    else natCharsGo fuel (n / 10) ++ [Char.ofNat (48 + n % 10)]

/-- Decimal rendering of `n`. -/
def natChars (n : Nat) : List Char :=
  natCharsGo (n + 1) n

/-- Modelled from the spec: `RuleId` rendering (`RuleId::to_string` in
`tracey-core`, absent from `src/`): `base` for version 1, `base+N`
otherwise. -/
def renderRuleId (r : RuleId) : List Char :=
  if r.version = 1 then r.base else r.base ++ '+' :: natChars r.version

def isLowerC (c : Char) : Bool := 'a' ≤ c && c ≤ 'z'

def isDigitC (c : Char) : Bool := '0' ≤ c && c ≤ '9'

/-- Characters allowed after the head of the first base component
(`[a-z0-9]`). -/
def isBaseTailC (c : Char) : Bool := isLowerC c || isDigitC c

/-- Characters allowed after the head of later base components
(`[a-z0-9-]`). -/
def isCompTailC (c : Char) : Bool := isLowerC c || isDigitC c || c = '-'

/-- Numeric value of a digit run. -/
def digitsToNat (ds : List Char) : Nat :=
  ds.foldl (fun acc c => acc * 10 + (c.toNat - 48)) 0

/-- Modelled from the spec: the `(\.[a-z][a-z0-9-]*)+` tail of a rule base.
Returns the consumed characters and the remainder; fuel bounds the number
of components. -/
def dotComps : Nat → List Char → List Char × List Char
  | 0, l => ([], l)
  | fuel + 1, l =>
    match l with
    | '.' :: c :: rest =>
      if isLowerC c then
        let tail := rest.takeWhile isCompTailC
        let (more, rem) := dotComps fuel (rest.drop tail.length)
        ('.' :: c :: (tail ++ more), rem)
      else ([], l)
    | _ => ([], l)

/-- Modelled from the spec: match an explicit verb keyword followed by a
space at the head of the bracket body; absent verb means `Define`. -/
def matchVerb (l : List Char) : RefVerb × List Char :=
  if List.isPrefixOf ['i', 'm', 'p', 'l', ' '] l then (.impl, l.drop 5)
  else if List.isPrefixOf ['v', 'e', 'r', 'i', 'f', 'y', ' '] l then
    (.verify, l.drop 7)
  else if List.isPrefixOf ['d', 'e', 'p', 'e', 'n', 'd', 's', ' '] l then
    (.depends, l.drop 8)
  else if List.isPrefixOf ['r', 'e', 'l', 'a', 't', 'e', 'd', ' '] l then
    (.related, l.drop 8)
  else if List.isPrefixOf ['d', 'e', 'f', 'i', 'n', 'e', ' '] l then
    (.define, l.drop 7)
  else (.define, l)

/-- Modelled from the spec: parse a marker `PREFIX[VERB? BASE(+VERSION)?]`
at the head of `l` (the marker grammar of §6 of the spec; the scanner
itself, `Reqs::extract_from_content` in `tracey-core`, is absent from
`src/`).  Returns `(verb, rule id, marker length)`. -/
def parseMarkerAt (l : List Char) : Option (RefVerb × RuleId × Nat) :=
  let pfx := l.takeWhile isLowerC
  if pfx.isEmpty then none
  else
    match l.drop pfx.length with
    | '[' :: inner =>
      let (verb, body) := matchVerb inner
      match body with
      | c :: rest =>
        if isLowerC c then
          let t1 := rest.takeWhile isBaseTailC
          let (dots, rem) := dotComps rest.length (rest.drop t1.length)
          if dots.isEmpty then none
          else
            let base := c :: (t1 ++ dots)
            let (ver, rem2) :=
              match rem with
              | '+' :: ds =>
                let dg := ds.takeWhile isDigitC
                if dg.isEmpty then (1, rem)
                else (digitsToNat dg, ds.drop dg.length)
              | _ => (1, rem)
            match rem2 with
            | ']' :: after =>
              some (verb, ⟨base, ver⟩, l.length - after.length)
            | _ => none
        else none
      | [] => none
    | _ => none

/-- A reference produced by marker extraction: verb, rule id and the
`(offset, length)` span of the whole marker. -/
structure RefOut where
  verb : RefVerb
  reqId : RuleId
  off : Nat
  len : Nat
deriving DecidableEq, Repr

/-- Modelled from the spec: `Reqs::extract_from_content` (absent from
`src/`), restricted to what `replacement_edits_for_file` consumes: every
position where a marker parses and the preceding character does not extend
the prefix yields a reference whose span covers the marker. -/
def extractReferences (content : List Char) : List RefOut :=
  (List.range content.length).filterMap (fun i =>
    if i = 0 || !isLowerC (content.getD (i - 1) '!') then
      match parseMarkerAt (content.drop i) with
      | some (verb, rid, len) => some ⟨verb, rid, i, len⟩
      | none => none
    else none)

/-- A produced text edit.  The Rust `TextEdit` carries the line/column
range computed from `abs_start`/`abs_end`; the byte offsets themselves are
kept here alongside. -/
structure REdit where
  absStart : Nat
  absEnd : Nat
  startLine : Nat
  startChar : Nat
  endLine : Nat
  endChar : Nat
  newText : List Char
deriving DecidableEq, Repr

/-- `Backend::offset_to_line_col` from `bridge/lsp.rs`: count newlines and
columns over the characters before `offset`. -/
def offsetToLineCol (content : List Char) (off : Nat) : Nat × Nat :=
  (content.take off).foldl
    (fun lc c => if c = '\n' then (lc.1 + 1, 0) else (lc.1, lc.2 + 1))
    (0, 0)

/-- `Backend::replacement_edits_for_file` from `bridge/lsp.rs`: for every
extracted reference that is not a `Define` and matches `old_id`, slice the
span text, find the rendered old id inside it, and emit an edit replacing
it with `new_id`. -/
def replacement_edits_for_file (content : List Char) (oldId : RuleId)
    (newId : List Char) : List REdit :=
  (extractReferences content).filterMap (fun r =>
    if r.verb = RefVerb.define ∨ r.reqId ≠ oldId then none
    else if r.off + r.len ≤ content.length then
      match findSub (renderRuleId oldId)
          ((content.drop r.off).take (r.off + r.len - r.off)) with
      | some localIdx =>
        some ⟨r.off + localIdx,
          r.off + localIdx + (renderRuleId oldId).length,
          (offsetToLineCol content (r.off + localIdx)).1,
          (offsetToLineCol content (r.off + localIdx)).2,
          (offsetToLineCol content
            (r.off + localIdx + (renderRuleId oldId).length)).1,
          (offsetToLineCol content
            (r.off + localIdx + (renderRuleId oldId).length)).2,
          newId⟩
      | none => none
    else none)

/-! ## Daemon watcher paths (`crates/tracey/src/daemon/mod.rs`) -/

/-- A filesystem path as its list of components. -/
abbrev TPath : Type := List (List Char)

/-- Rust `Path::to_string_lossy`: components joined by `/`. -/
def pathChars (p : TPath) : List Char :=
  List.intercalate ['/'] p

/-- Rust `Path::file_name` for paths of normal components: the last
component. -/
def fileNameOf (p : TPath) : Option (List Char) :=
  List.getLast? p

/-- Rust `Path::parent`: `none` for the empty path, otherwise the path
without its last component. -/
def parentPath (p : TPath) : Option TPath :=
  match p with
  | [] => none
  | _ :: _ => some (List.dropLast p)

/-- Rust `Path::starts_with`: component-wise prefix test (`p.starts_with q`). -/
def pathStartsWith (p q : TPath) : Bool :=
  List.isPrefixOf q p

/-- `is_temporary_edit_artifact` from `daemon/mod.rs`: editor temp files by
path string and file name. -/
def is_temporary_edit_artifact (p : TPath) : Bool :=
  if occursIn ['.', 't', 'm', 'p', '.'] (pathChars p) then true
  else
    match fileNameOf p with
    | none => false
    | some name =>
      occursIn ['.', 't', 'm', 'p', '.'] name
      || List.isSuffixOf ['.', 't', 'm', 'p'] name
      || List.isSuffixOf ['~'] name
      || List.isSuffixOf ['.', 's', 'w', 'p'] name
      || List.isSuffixOf ['.', 's', 'w', 'o'] name
      || List.isSuffixOf ['.', 's', 'w', 'x'] name
      || List.isPrefixOf ['.', '#'] name

/-- The claim's characterization of editor temp artifacts, written from the
spec sentence: file name ends with `.tmp`, `~`, `.swp`, `.swo`, `.swx`,
starts with `.#`, or contains `.tmp.`, or the full path contains `.tmp.`. -/
def claimedTempArtifact (p : TPath) : Bool :=
  occursIn ['.', 't', 'm', 'p', '.'] (pathChars p)
  || (match fileNameOf p with
      | none => false
      | some name =>
        List.isSuffixOf ['.', 't', 'm', 'p'] name
        || List.isSuffixOf ['~'] name
        || List.isSuffixOf ['.', 's', 'w', 'p'] name
        || List.isSuffixOf ['.', 's', 'w', 'o'] name
        || List.isSuffixOf ['.', 's', 'w', 'x'] name
        || List.isPrefixOf ['.', '#'] name
        || occursIn ['.', 't', 'm', 'p', '.'] name)

/-- The rebuild task's per-batch path filter (`daemon/mod.rs`, rebuild task):
keep paths that are not temp artifacts, survive gitignore, and pass the
include/exclude check; gitignore and glob matching are abstracted as
predicates. -/
def survivingPaths (gitignoreKeeps includeOk : TPath → Bool)
    (paths : List TPath) : List TPath :=
  ((paths.filter (fun p => !is_temporary_edit_artifact p)).filter
    gitignoreKeeps).filter includeOk

/-- `path_triggers_reconfigure` from `daemon/mod.rs`. -/
def path_triggers_reconfigure (p configPath gitignorePath : TPath) : Bool :=
  if p = configPath || p = gitignorePath then true
  else if pathStartsWith configPath p || pathStartsWith gitignorePath p then true
  else
    match parentPath configPath with
    | some configDir => pathStartsWith p configDir
    | none => false

/-- Watcher events sent from the debounced handler to the rebuild task. -/
inductive WatcherEvt where
  | reconfigure
  | filesChanged (events : List (List TPath))
deriving DecidableEq

/-- The debounced-batch handler closure in `run_smart_watcher`: extract all
paths from the batch, emit nothing when empty, `Reconfigure` when any path
triggers reconfiguration, otherwise `FilesChanged(events)`. -/
def handlerEmit (configPath gitignorePath : TPath)
    (events : List (List TPath)) : Option WatcherEvt :=
  let paths := events.flatten
  if paths.isEmpty then none
  else if paths.any (fun p => path_triggers_reconfigure p configPath gitignorePath)
  then some .reconfigure
  else some (.filesChanged events)

/-! ## Daemon accept loop and startup (`crates/tracey/src/daemon/mod.rs`) -/

/-- `DEFAULT_IDLE_TIMEOUT_SECS`. -/
def DEFAULT_IDLE_TIMEOUT_SECS : Nat := 600

/-- Outcome of one `tokio::select!` round in the accept loop of
`daemon::run`. -/
inductive AcceptOutcome where
  | shutdownSignal (flag : Bool)
  | accepted
  | acceptError
  | timeout
deriving DecidableEq

/-- Accept-loop counters: active connection count and last-activity time
(seconds since daemon start). -/
structure LoopState where
  active : Nat
  last : Nat
deriving DecidableEq, Repr

/-- What one iteration of the accept loop does. -/
inductive LoopAction where
  /-- `return Ok(())` after a shutdown signal; the flag records whether the
  endpoint was removed. -/
  | exitShutdown (endpointRemoved : Bool)
  /-- `return Ok(())` from the idle-timeout branch; the flag records whether
  the endpoint was removed. -/
  | exitIdle (endpointRemoved : Bool)
  | continueLoop (st : LoopState)
deriving DecidableEq

/-- One iteration of the accept loop in `daemon::run`: `now` is
`start_time.elapsed().as_secs()` at this round.  On accept, activity is
recorded and the connection count incremented; on timeout with no active
connections and `idle ≥ DEFAULT_IDLE_TIMEOUT_SECS` the endpoint is removed
and the loop exits. -/
def acceptLoopBody (st : LoopState) (oc : AcceptOutcome) (now : Nat) :
    LoopAction :=
  match oc with
  | .shutdownSignal flag =>
    if flag then .exitShutdown true else .continueLoop st
  | .accepted => .continueLoop ⟨st.active + 1, now⟩
  | .acceptError => .continueLoop st
  | .timeout =>
    if st.active = 0 then
      if DEFAULT_IDLE_TIMEOUT_SECS ≤ now - st.last then .exitIdle true
      else .continueLoop st
    else .continueLoop st

/-- Actions taken while `daemon::run` starts up. -/
inductive StartAction where
  | removeEndpoint
  | bindListener
  | failStart
deriving DecidableEq

/-- The endpoint-handling prefix of `daemon::run`'s startup: if the endpoint
exists and a connection to it succeeds, fail (`bail!`) before binding;
if it exists but the connection fails, remove the stale endpoint and
proceed to bind; otherwise just bind. -/
def startupTrace (endpointExists connectOk : Bool) : List StartAction :=
  if endpointExists then
    if connectOk then [.failStart]
    else [.removeEndpoint, .bindListener]
  else [.bindListener]

/-! ## Theorems -/

/-- **C9**: `ByteSpan::from_relative_indices` builds a span with offset
`base + start` and inclusive-end length `end_inclusive - start + 1`; under
ordered bounds and no `usize` overflow no panic occurs, while unordered
bounds or overflow panic (modelled as `none`). -/
theorem byte_span_inclusive_construction (base start endIncl : Nat) :
    (start ≤ endIncl → base + start < USIZE → endIncl - start + 1 < USIZE →
      from_relative_indices base start endIncl
        = some ⟨base + start, endIncl - start + 1⟩)
    ∧ (endIncl < start → from_relative_indices base start endIncl = none)
    ∧ (USIZE ≤ base + start →
        from_relative_indices base start endIncl = none) := by
  refine ⟨fun hord hov1 hov2 => ?_, fun hlt => ?_, fun hov => ?_⟩
  · simp only [from_relative_indices, byteOffsetAdd, fromInclusiveBounds,
      checkedAdd, checkedSub, if_pos hov1, if_pos hord]
    simp [hov2]
  · simp only [from_relative_indices, byteOffsetAdd, fromInclusiveBounds,
      checkedAdd, checkedSub]
    have : ¬ start ≤ endIncl := by omega
    simp only [if_neg this, Option.none_bind]
    split
    · simp_all
    · rfl
  · simp only [from_relative_indices, byteOffsetAdd, checkedAdd]
    have : ¬ base + start < USIZE := by omega
    simp [this]

/-- **C9 witness**: concrete evaluation at ordered and unordered bounds. -/
theorem byte_span_inclusive_construction_witness :
    from_relative_indices 10 5 9 = some ⟨15, 5⟩
    ∧ from_relative_indices 10 5 3 = none :=
  ⟨(byte_span_inclusive_construction 10 5 9).1 (by decide)
      (by norm_num [USIZE]) (by norm_num [USIZE]),
    (byte_span_inclusive_construction 10 5 3).2.1 (by decide)⟩

/-- **C5**: the accept loop of `daemon::run` exits for idleness only from
the accept-timeout branch, with zero active connections and at least
`DEFAULT_IDLE_TIMEOUT_SECS = 600` seconds since the last connection
activity, and that exit removes the IPC endpoint. -/
theorem idle_exit_conditions (st : LoopState) (oc : AcceptOutcome)
    (now : Nat) (r : Bool)
    (h : acceptLoopBody st oc now = LoopAction.exitIdle r) :
    oc = AcceptOutcome.timeout ∧ st.active = 0 ∧ 600 ≤ now - st.last
    ∧ r = true ∧ DEFAULT_IDLE_TIMEOUT_SECS = 600 := by
  cases oc with
  | shutdownSignal flag =>
    simp only [acceptLoopBody] at h
    split at h <;> simp_all
  | accepted => simp [acceptLoopBody] at h
  | acceptError => simp [acceptLoopBody] at h
  | timeout =>
    simp only [acceptLoopBody] at h
    split at h
    · split at h
      · refine ⟨rfl, by assumption, ?_, ?_, rfl⟩ <;> simp_all [DEFAULT_IDLE_TIMEOUT_SECS]
      · simp at h
    · simp at h

/-- **C5 witness**: the idle exit taken at a concrete state satisfies the
conditions. -/
theorem idle_exit_conditions_witness :
    AcceptOutcome.timeout = AcceptOutcome.timeout
    ∧ (⟨0, 0⟩ : LoopState).active = 0 ∧ 600 ≤ 600 - (⟨0, 0⟩ : LoopState).last
    ∧ true = true ∧ DEFAULT_IDLE_TIMEOUT_SECS = 600 :=
  idle_exit_conditions ⟨0, 0⟩ AcceptOutcome.timeout 600 true (by decide)

/-- **C6**: when the workspace IPC endpoint already exists, `daemon::run`
fails before binding a listener if a connection to it succeeds, and removes
the stale endpoint then proceeds to bind if the connection fails. -/
theorem stale_endpoint_startup (endpointExists connectOk : Bool)
    (h : endpointExists = true) :
    (connectOk = true →
      startupTrace endpointExists connectOk = [StartAction.failStart]
      ∧ StartAction.bindListener ∉ startupTrace endpointExists connectOk)
    ∧ (connectOk = false →
      startupTrace endpointExists connectOk
        = [StartAction.removeEndpoint, StartAction.bindListener]) := by
  subst h
  cases connectOk <;> simp [startupTrace]

/-- **C6 witness**: both branches evaluated concretely. -/
theorem stale_endpoint_startup_witness :
    startupTrace true true = [StartAction.failStart]
    ∧ startupTrace true false
      = [StartAction.removeEndpoint, StartAction.bindListener] :=
  ⟨((stale_endpoint_startup true true rfl).1 rfl).1,
    (stale_endpoint_startup true false rfl).2 rfl⟩

/-- **C4**: for a batch of watcher events with a nonempty set of paths, the
handler emits `Reconfigure` exactly when some path triggers
reconfiguration (`path_triggers_reconfigure`), and otherwise emits
`FilesChanged` with the batch. -/
theorem watcher_batch_classification (configPath gitignorePath : TPath)
    (events : List (List TPath)) (h : events.flatten ≠ []) :
    (handlerEmit configPath gitignorePath events = some WatcherEvt.reconfigure
      ↔ ∃ p ∈ events.flatten,
          path_triggers_reconfigure p configPath gitignorePath = true)
    ∧ ((∀ p ∈ events.flatten,
          path_triggers_reconfigure p configPath gitignorePath = false) →
        handlerEmit configPath gitignorePath events
          = some (WatcherEvt.filesChanged events)) := by
  have hne : ¬ events.flatten.isEmpty := by
    simpa [List.isEmpty_iff] using h
  constructor
  · constructor
    · intro hemit
      by_contra hno
      push_neg at hno
      have hany : events.flatten.any
          (fun p => path_triggers_reconfigure p configPath gitignorePath)
            = false := by
        simp only [List.any_eq_false]
        intro p hp
        simpa using (hno p hp)
      simp [handlerEmit, hne, hany] at hemit
    · intro ⟨p, hp, htrig⟩
      have hany : events.flatten.any
          (fun p => path_triggers_reconfigure p configPath gitignorePath)
            = true :=
        List.any_eq_true.mpr ⟨p, hp, htrig⟩
      simp [handlerEmit, hne, hany]
  · intro hall
    have hany : events.flatten.any
        (fun p => path_triggers_reconfigure p configPath gitignorePath)
          = false := by
      simp only [List.any_eq_false]
      intro p hp
      simp [hall p hp]
    simp [handlerEmit, hne, hany]

/-- **C4 witness**: a batch touching the config file yields `Reconfigure`;
a batch of unrelated paths yields `FilesChanged`. -/
theorem watcher_batch_classification_witness :
    handlerEmit [['c'], ['s']] [['g']] [[[['c'], ['s']]]]
      = some WatcherEvt.reconfigure
    ∧ handlerEmit [['c'], ['s']] [['g']] [[[['x'], ['y']]]]
      = some (WatcherEvt.filesChanged [[[['x'], ['y']]]]) :=
  ⟨(watcher_batch_classification [['c'], ['s']] [['g']] [[[['c'], ['s']]]]
      (by decide)).1.mpr ⟨[['c'], ['s']], by decide, by decide⟩,
    (watcher_batch_classification [['c'], ['s']] [['g']] [[[['x'], ['y']]]]
      (by decide)).2 (by decide)⟩

/-- **C7**: `is_temporary_edit_artifact` classifies exactly the claimed
editor temp artifacts (file name ending in `.tmp`, `~`, `.swp`, `.swo`,
`.swx`, starting with `.#`, or containing `.tmp.`, or full path containing
`.tmp.`), and the rebuild task's batch filter drops every such path. -/
theorem temp_artifact_classification :
    (∀ p : TPath, is_temporary_edit_artifact p = claimedTempArtifact p)
    ∧ (∀ (gitignoreKeeps includeOk : TPath → Bool) (paths : List TPath)
        (p : TPath), p ∈ survivingPaths gitignoreKeeps includeOk paths →
          is_temporary_edit_artifact p = false) := by
  constructor
  · intro p
    rw [Bool.eq_iff_iff]
    cases hocc : occursIn ['.', 't', 'm', 'p', '.'] (pathChars p) <;>
      cases hname : fileNameOf p <;>
        (simp [is_temporary_edit_artifact, claimedTempArtifact, hocc, hname];
          try tauto)
  · intro g i paths p hp
    simp only [survivingPaths, List.mem_filter] at hp
    have := hp.1.1.2
    simpa using this

theorem pairwise_getD_lt {l : List Nat} (h : List.Pairwise (· < ·) l)
    {i j : Nat} (hij : i < j) (hj : j < l.length) :
    l.getD i 0 < l.getD j 0 := by
  rw [List.getD_eq_getElem _ _ (lt_trans hij hj), List.getD_eq_getElem _ _ hj]
  exact List.pairwise_iff_getElem.mp h i j _ _ hij

theorem getD_mem_of_lt {l : List Nat} {j : Nat} (h : j < l.length) :
    l.getD j 0 ∈ l := by
  rw [List.getD_eq_getElem l 0 h]
  exact List.getElem_mem h

/-- Correctness of the fueled binary-search loop on a strictly sorted list:
`found i` locates the target, `missing i` is an insertion point with all
smaller elements to its left and larger to its right. -/
theorem bsearchGo_spec (l : List Nat) (t : Nat)
    (hs : List.Pairwise (· < ·) l) :
    ∀ (fuel left right : Nat), right - left ≤ fuel → left ≤ right →
      right ≤ l.length →
      (∀ j, j < left → l.getD j 0 < t) →
      (∀ j, right ≤ j → j < l.length → t < l.getD j 0) →
      (∃ i, bsearchGo l t fuel left right = .found i
        ∧ i < l.length ∧ l.getD i 0 = t)
      ∨ (∃ i, bsearchGo l t fuel left right = .missing i ∧ i ≤ l.length
          ∧ (∀ j, j < i → l.getD j 0 < t)
          ∧ (∀ j, i ≤ j → j < l.length → t < l.getD j 0)) := by
  intro fuel
  induction fuel with
  | zero =>
    intro left right hfl hlr hrl hlo hhi
    exact Or.inr ⟨left, rfl, by omega, hlo,
      fun j hj1 hj2 => hhi j (by omega) hj2⟩
  | succ fuel ih =>
    intro left right hfl hlr hrl hlo hhi
    have hunf : bsearchGo l t (fuel + 1) left right
        = (if left < right then
            (if l.getD (left + (right - left) / 2) 0 < t then
              bsearchGo l t fuel (left + (right - left) / 2 + 1) right
            else if t < l.getD (left + (right - left) / 2) 0 then
              bsearchGo l t fuel left (left + (right - left) / 2)
            else .found (left + (right - left) / 2))
          else .missing left) := rfl
    rw [hunf]
    by_cases h : left < right
    · rw [if_pos h]
      have hmlt : left + (right - left) / 2 < right := by omega
      have hmge : left ≤ left + (right - left) / 2 := by omega
      by_cases h1 : l.getD (left + (right - left) / 2) 0 < t
      · rw [if_pos h1]
        refine ih (left + (right - left) / 2 + 1) right (by omega) (by omega)
          hrl ?_ hhi
        intro j hj
        rcases Nat.lt_or_ge j (left + (right - left) / 2) with hlt | hge
        · exact lt_trans (pairwise_getD_lt hs hlt (by omega)) h1
        · have hje : j = left + (right - left) / 2 := by omega
          rw [hje]
          exact h1
      · rw [if_neg h1]
        by_cases h2 : t < l.getD (left + (right - left) / 2) 0
        · rw [if_pos h2]
          refine ih left (left + (right - left) / 2) (by omega) (by omega)
            (by omega) hlo ?_
          intro j hj1 hj2
          rcases Nat.lt_or_ge (left + (right - left) / 2) j with hlt | hge
          · exact lt_trans h2 (pairwise_getD_lt hs hlt hj2)
          · have hje : j = left + (right - left) / 2 := by omega
            rw [hje]
            exact h2
        · rw [if_neg h2]
          exact Or.inl ⟨left + (right - left) / 2, rfl, by omega, by omega⟩
    · rw [if_neg h]
      exact Or.inr ⟨left, rfl, by omega, hlo,
        fun j hj1 hj2 => hhi j (by omega) hj2⟩

/-- If everything strictly below index `i` is below `t` and everything from
`i` on is not, then exactly `i` elements test below `t`. -/
theorem countP_eq_of_cut (l : List Nat) (t i : Nat) (hi : i ≤ l.length)
    (hlo : ∀ j, j < i → l.getD j 0 < t)
    (hhi : ∀ j, i ≤ j → j < l.length → ¬ l.getD j 0 < t) :
    l.countP (fun s => decide (s < t)) = i := by
  conv_lhs => rw [← List.take_append_drop i l]
  rw [List.countP_append]
  have h1 : (l.take i).countP (fun s => decide (s < t)) = i := by
    have hall : ∀ a ∈ l.take i, (fun s => decide (s < t)) a = true := by
      intro a ha
      obtain ⟨n, hn, hna⟩ := List.mem_iff_getElem.mp ha
      have hnl : n < i := by
        have := hn
        simp only [List.length_take] at this
        omega
      have : a = l.getD n 0 := by
        rw [List.getD_eq_getElem _ _ (by omega), ← hna, List.getElem_take]
      rw [this]
      simpa using hlo n hnl
    rw [List.countP_eq_length.mpr hall, List.length_take]
    omega
  have h2 : (l.drop i).countP (fun s => decide (s < t)) = 0 := by
    rw [List.countP_eq_zero]
    intro a ha
    obtain ⟨n, hn, hna⟩ := List.mem_iff_getElem.mp ha
    have hlen : (l.drop i).length = l.length - i := by simp
    have : a = l.getD (i + n) 0 := by
      rw [List.getD_eq_getElem _ _ (by omega), ← hna, List.getElem_drop]
    rw [this]
    simpa using hhi (i + n) (by omega) (by omega)
  omega

theorem mem_nlPositions (c : List Nat) (m : Nat) :
    m ∈ nlPositions c ↔ m < c.length ∧ c.getD m 0 = 10 := by
  induction c generalizing m with
  | nil => simp [nlPositions]
  | cons b rest ih =>
    simp only [nlPositions, List.mem_append, List.mem_map]
    cases m with
    | zero =>
      by_cases hb : b = 10 <;> simp [hb]
    | succ k =>
      have h1 : (k + 1 ∈ if b = 10 then [0] else []) = False := by
        by_cases hb : b = 10 <;> simp [hb]
      simp only [h1, false_or, List.getD_cons_succ]
      constructor
      · intro ⟨a, ha, hak⟩
        have hak2 : a = k := by omega
        rw [hak2] at ha
        have := (ih k).mp ha
        simp only [List.length_cons]
        exact ⟨by omega, this.2⟩
      · intro ⟨hk, hv⟩
        have hk2 : k < rest.length := by
          simp only [List.length_cons] at hk
          omega
        exact ⟨k, (ih k).mpr ⟨hk2, hv⟩, by omega⟩

theorem nlPositions_pairwise (c : List Nat) :
    List.Pairwise (· < ·) (nlPositions c) := by
  induction c with
  | nil => simp [nlPositions]
  | cons b rest ih =>
    simp only [nlPositions]
    rw [List.pairwise_append]
    refine ⟨?_, List.Pairwise.map _ (fun a b h => by omega) ih, ?_⟩
    · by_cases hb : b = 10 <;> simp [hb]
    · intro a ha x hx
      have ha0 : a = 0 := by
        by_cases hb : b = 10 <;> simp [hb] at ha
        exact ha
      obtain ⟨p, hp, hpx⟩ := List.mem_map.mp hx
      omega

theorem lineStarts_pairwise (c : List Nat) :
    List.Pairwise (· < ·) (lineStartsFromContent c) := by
  simp only [lineStartsFromContent]
  rw [List.pairwise_cons]
  refine ⟨?_, List.Pairwise.map _ (fun a b h => by omega)
    (nlPositions_pairwise c)⟩
  intro x hx
  obtain ⟨p, hp, hpx⟩ := List.mem_map.mp hx
  omega

/-- Newline positions below `o` match newline bytes among the first `o`
bytes. -/
theorem nlPositions_countP (c : List Nat) :
    ∀ o : Nat, (nlPositions c).countP (fun p => decide (p < o))
      = (c.take o).countP (fun b => b == 10) := by
  induction c with
  | nil => intro o; simp [nlPositions]
  | cons b rest ih =>
    intro o
    cases o with
    | zero =>
      simp only [List.take_zero]
      rw [List.countP_eq_zero.mpr (by intro a _; simp)]
      rfl
    | succ m =>
      simp only [nlPositions, List.countP_append, List.countP_map,
        List.take_succ_cons]
      have hcomp : ((fun p => decide (p < m + 1)) ∘ (· + 1))
          = (fun p : Nat => decide (p < m)) := by
        funext x
        simp only [Function.comp_apply]
        by_cases h : x < m
        · simp [h]
        · simp [h]
      rw [hcomp, ih m]
      rw [List.countP_cons]
      by_cases hb : b = 10
      · simp [hb]
        omega
      · have hb2 : (b == 10) = false := by simpa using hb
        simp [hb, hb2]

/-- Counting line starts strictly below `m + 1`. -/
theorem lineStarts_countP (c : List Nat) (m : Nat) :
    (lineStartsFromContent c).countP (fun s => decide (s < m + 1))
      = 1 + (c.take m).countP (fun b => b == 10) := by
  simp only [lineStartsFromContent]
  rw [List.countP_cons]
  simp only [List.countP_map]
  have hcomp : ((fun s => decide (s < m + 1)) ∘ (· + 1))
      = (fun p : Nat => decide (p < m)) := by
    funext x
    simp only [Function.comp_apply]
    by_cases h : x < m
    · simp [h]
    · simp [h]
  rw [hcomp, nlPositions_countP c m]
  simp
  omega

/-- **C8**: for `o ≤ len(s)`, `LineStarts::from_content(s)` followed by
`line_number_for_offset(o)` (a binary search over the precomputed line
starts) returns the 1-based line number `1 +` the number of newline bytes
of `s` at indices strictly below `o`. -/
theorem line_number_for_offset_correct (content : List Nat) (o : Nat)
    (h : o ≤ content.length) :
    lineNumberForOffset (lineStartsFromContent content) o
      = 1 + (content.take o).countP (fun b => b == 10) := by
  have hs := lineStarts_pairwise content
  have hspec := bsearchGo_spec (lineStartsFromContent content) o hs
    (lineStartsFromContent content).length 0
    (lineStartsFromContent content).length
    (by omega) (by omega) (le_refl _)
    (fun j hj => absurd hj (Nat.not_lt_zero j))
    (fun j hj1 hj2 => absurd hj1 (by omega))
  simp only [lineNumberForOffset, bsearch]
  rcases hspec with ⟨i, heq, hi, ht⟩ | ⟨i, heq, hile, hlo, hhi⟩
  · rw [heq]
    show i + 1 = 1 + (content.take o).countP (fun b => b == 10)
    have hrank : (lineStartsFromContent content).countP
        (fun s => decide (s < o)) = i := by
      refine countP_eq_of_cut _ _ _ (by omega) ?_ ?_
      · intro j hj
        have := pairwise_getD_lt hs hj hi
        omega
      · intro j hj1 hj2
        rcases Nat.eq_or_lt_of_le hj1 with he | hlt
        · rw [← he, ht]
          omega
        · have := pairwise_getD_lt hs hlt hj2
          omega
    have hmem : o ∈ lineStartsFromContent content := by
      rw [← ht]
      exact getD_mem_of_lt hi
    cases o with
    | zero =>
      have hz : (lineStartsFromContent content).countP
          (fun s => decide (s < 0)) = 0 :=
        List.countP_eq_zero.mpr (by intro a _; simp)
      rw [hz] at hrank
      simp only [List.take_zero, List.countP_nil]
      omega
    | succ m =>
      rw [lineStarts_countP content m] at hrank
      have hm : m ∈ nlPositions content := by
        simp only [lineStartsFromContent, List.mem_cons, List.mem_map] at hmem
        rcases hmem with h0 | ⟨p, hp, hpm⟩
        · omega
        · have hpe : p = m := by omega
          rw [← hpe]
          exact hp
      have hm2 := (mem_nlPositions content m).mp hm
      have hval : content[m] = 10 := by
        have hv := hm2.2
        rwa [List.getD_eq_getElem _ _ hm2.1] at hv
      have htake : (content.take (m + 1)).countP (fun b => b == 10)
          = (content.take m).countP (fun b => b == 10) + 1 := by
        rw [List.take_succ, List.getElem?_eq_getElem hm2.1,
          List.countP_append]
        simp [hval]
      omega
  · rw [heq]
    show i = 1 + (content.take o).countP (fun b => b == 10)
    have hrank : (lineStartsFromContent content).countP
        (fun s => decide (s < o)) = i :=
      countP_eq_of_cut _ _ _ hile hlo
        (fun j h1 h2 => by have := hhi j h1 h2; omega)
    have hS0 : (lineStartsFromContent content).getD 0 0 = 0 := rfl
    have hlen0 : 0 < (lineStartsFromContent content).length := by
      simp [lineStartsFromContent]
    have ho : o ≠ 0 := by
      intro h0
      subst h0
      rcases Nat.eq_zero_or_pos i with hi0 | hipos
      · have hc := hhi 0 (by omega) hlen0
        rw [hS0] at hc
        exact absurd hc (lt_irrefl 0)
      · have hc := hlo 0 hipos
        rw [hS0] at hc
        exact absurd hc (Nat.not_lt_zero 0)
    obtain ⟨m, rfl⟩ := Nat.exists_eq_succ_of_ne_zero ho
    rw [lineStarts_countP content m] at hrank
    have hnot : m ∉ nlPositions content := by
      intro hm
      have hmem : m + 1 ∈ lineStartsFromContent content := by
        simp only [lineStartsFromContent, List.mem_cons, List.mem_map]
        exact Or.inr ⟨m, hm, rfl⟩
      obtain ⟨n, hn, hna⟩ := List.mem_iff_getElem.mp hmem
      have hgd : (lineStartsFromContent content).getD n 0 = m + 1 := by
        rw [List.getD_eq_getElem _ _ hn, hna]
      rcases Nat.lt_or_ge n i with hlt | hge
      · have hc := hlo n hlt
        rw [hgd] at hc
        exact absurd hc (lt_irrefl _)
      · have hc := hhi n hge hn
        rw [hgd] at hc
        exact absurd hc (lt_irrefl _)
    have htake : (content.take (m + 1)).countP (fun b => b == 10)
        = (content.take m).countP (fun b => b == 10) := by
      rw [List.take_succ, List.countP_append]
      rcases Nat.lt_or_ge m content.length with hlt | hge
      · have hne : content[m] ≠ 10 := by
          intro h10
          apply hnot
          exact (mem_nlPositions content m).mpr
            ⟨hlt, by rw [List.getD_eq_getElem _ _ hlt]; exact h10⟩
        rw [List.getElem?_eq_getElem hlt]
        have hf : (content[m] == 10) = false := by simpa using hne
        simp [hf]
      · have hnone : content[m]? = none := by
          rw [List.getElem?_eq_none_iff]
          exact hge
        simp [hnone]
    simp only [Nat.succ_eq_add_one]
    omega

/-- **C8 witness**: evaluated on `"a\nb"` at offset 2 (line 2). -/
theorem line_number_for_offset_correct_witness :
    lineNumberForOffset (lineStartsFromContent [97, 10, 98]) 2
      = 1 + (([97, 10, 98] : List Nat).take 2).countP (fun b => b == 10) :=
  line_number_for_offset_correct [97, 10, 98] 2 (by decide)

theorem splitInclusive_ne_nil (b : Nat) (rest : List Nat) :
    splitInclusive (b :: rest) ≠ [] := by
  simp only [splitInclusive]
  split
  · simp
  · split <;> simp

theorem splitInclusive_flatten (l : List Nat) :
    (splitInclusive l).flatten = l := by
  induction l with
  | nil => rfl
  | cons b rest ih =>
    simp only [splitInclusive]
    split
    · simpa using ih
    · rcases hsp : splitInclusive rest with _ | ⟨line, ls⟩
      · have : rest = [] := by
          by_contra hne
          rcases rest with _ | ⟨c, cs⟩
          · exact hne rfl
          · exact splitInclusive_ne_nil c cs hsp
        simp [this]
      · rw [hsp] at ih
        simpa using ih

theorem removeCount_le (minIndent : Nat) (line : List Nat) :
    removeCount minIndent line ≤ line.length := by
  calc removeCount minIndent line
      ≤ (line.take minIndent).length :=
        (List.takeWhile_sublist _).length_le
    _ ≤ line.length := by simp

/-- Joint invariants of the per-line dedent loop: the index map has one
entry per normalized byte, is strictly increasing, stays within
`[base, base + flattened length)`, and maps every normalized byte back to
the equal original byte. -/
theorem dedentGo_spec (mi : Nat) (lines : List (List Nat)) : ∀ base : Nat,
    ((dedentGo mi base lines).2).length = ((dedentGo mi base lines).1).length
    ∧ List.Pairwise (· < ·) (dedentGo mi base lines).2
    ∧ (∀ x ∈ (dedentGo mi base lines).2,
        base ≤ x ∧ x < base + lines.flatten.length)
    ∧ (∀ j, j < ((dedentGo mi base lines).2).length →
        ((dedentGo mi base lines).1).getD j 0
          = lines.flatten.getD (((dedentGo mi base lines).2).getD j 0 - base) 0) := by
  induction lines with
  | nil => intro base; simp [dedentGo]
  | cons line rest ih =>
    intro base
    obtain ⟨ihlen, ihpw, ihmem, ihval⟩ := ih (base + line.length)
    have hrc := removeCount_le mi line
    refine ⟨?_, ?_, ?_, ?_⟩
    · simp only [dedentGo, List.length_append, List.length_range',
        List.length_drop, ihlen]
    · simp only [dedentGo]
      rw [List.pairwise_append]
      refine ⟨List.pairwise_lt_range' _ _, ihpw, ?_⟩
      intro a ha b hb
      have ha2 : a < base + removeCount mi line
          + (line.length - removeCount mi line) := by
        have := List.mem_range'_1.mp ha
        omega
      have hb2 := (ihmem b hb).1
      omega
    · intro x hx
      simp only [dedentGo, List.mem_append] at hx
      rcases hx with hx | hx
      · have := List.mem_range'_1.mp hx
        simp only [List.flatten_cons, List.length_append]
        omega
      · have := ihmem x hx
        simp only [List.flatten_cons, List.length_append]
        omega
    · intro j hj
      simp only [dedentGo, List.length_append, List.length_range'] at hj
      have hlen1 : (List.range' (base + removeCount mi line)
          (line.length - removeCount mi line)).length
            = line.length - removeCount mi line :=
        List.length_range' _ _ _
      have hlend : (line.drop (removeCount mi line)).length
          = line.length - removeCount mi line := by
        simp
      by_cases hcase : j < line.length - removeCount mi line
      · have hgm : ((dedentGo mi base (line :: rest)).2).getD j 0
            = base + removeCount mi line + j := by
          simp only [dedentGo]
          rw [List.getD_append _ _ _ _ (by omega)]
          rw [List.getD_eq_getElem _ _ (by omega)]
          rw [List.getElem_range']
          omega
        have hgn : ((dedentGo mi base (line :: rest)).1).getD j 0
            = line.getD (removeCount mi line + j) 0 := by
          simp only [dedentGo]
          rw [List.getD_append _ _ _ _ (by omega)]
          rw [List.getD_eq_getElem _ _ (by omega)]
          rw [List.getElem_drop]
          rw [List.getD_eq_getElem line 0
            (show removeCount mi line + j < line.length by omega)]
        rw [hgm, hgn]
        have harith : base + removeCount mi line + j - base
            = removeCount mi line + j := by omega
        rw [harith]
        simp only [List.flatten_cons]
        rw [List.getD_append _ _ _ _ (by omega)]
      · have hgm : ((dedentGo mi base (line :: rest)).2).getD j 0
            = ((dedentGo mi (base + line.length) rest).2).getD
                (j - (line.length - removeCount mi line)) 0 := by
          simp only [dedentGo]
          rw [List.getD_append_right _ _ _ _ (by rw [hlen1]; omega)]
          rw [hlen1]
        have hgn : ((dedentGo mi base (line :: rest)).1).getD j 0
            = ((dedentGo mi (base + line.length) rest).1).getD
                (j - (line.length - removeCount mi line)) 0 := by
          simp only [dedentGo]
          rw [List.getD_append_right _ _ _ _ (by rw [hlend]; omega)]
          rw [hlend]
        rw [hgm, hgn]
        have hj2lt : j - (line.length - removeCount mi line)
            < ((dedentGo mi (base + line.length) rest).2).length := by
          omega
        have hge := (ihmem _ (getD_mem_of_lt hj2lt)).1
        rw [ihval _ hj2lt]
        simp only [List.flatten_cons]
        rw [List.getD_append_right _ _ _ _ (by omega)]
        congr 1
        omega

/-- Every index-map entry of `dedent_with_index_map` points at a byte of
the original text. -/
theorem dedent_indexMap_lt (text : List Nat) :
    ∀ x ∈ (dedent_with_index_map text).2, x < text.length := by
  intro x hx
  have h := (dedentGo_spec (minIndentOf (splitInclusive text))
    (splitInclusive text) 0).2.2.1 x hx
  rw [splitInclusive_flatten] at h
  omega

/-- Invariant preservation along any `foldl`. -/
theorem foldl_pres {α σ : Type} (f : σ → α → σ) (P : σ → Prop)
    (hf : ∀ st a, P st → P (f st a)) :
    ∀ (l : List α) (s : σ), P s → P (l.foldl f s) := by
  intro l
  induction l with
  | nil => intro s hs; exact hs
  | cons a rest ih => intro s hs; exact ih (f s a) (hf s a hs)

theorem markIdx_length (im : List Nat) (mask : List Bool) (n : Nat) :
    (markIdx im mask n).length = mask.length := by
  simp only [markIdx]
  cases im[n]? <;> simp

theorem markIdx_mono {im : List Nat} {mask : List Bool} {o : Nat} (n : Nat)
    (h : mask[o]? = some true) : (markIdx im mask n)[o]? = some true := by
  simp only [markIdx]
  cases hn : im[n]? with
  | none => exact h
  | some i =>
    rw [List.getElem?_set]
    by_cases hio : i = o
    · have holt : o < mask.length := by
        by_contra hge
        rw [List.getElem?_eq_none_iff.mpr (by omega)] at h
        exact Option.noConfusion h
      simp [hio, holt]
    · simp [hio, h]

theorem markRange_length (im : List Nat) (mask : List Bool)
    (start stop : Nat) :
    (markRange im mask start stop).length = mask.length := by
  simp only [markRange]
  exact foldl_pres (markIdx im) (fun m => m.length = mask.length)
    (fun st a hst => by
      show (markIdx im st a).length = mask.length
      rw [markIdx_length]
      exact hst) _ mask rfl

theorem markRange_mono {im : List Nat} {mask : List Bool} {o : Nat}
    (start stop : Nat) (h : mask[o]? = some true) :
    (markRange im mask start stop)[o]? = some true := by
  simp only [markRange]
  exact foldl_pres (markIdx im) (fun m => m[o]? = some true)
    (fun st a hst => markIdx_mono a hst) _ mask h

/-- Marking a range sets every in-range index that the index map sends to a
slot of the mask. -/
theorem markRange_marks {im : List Nat} {mask : List Bool}
    {start stop n o : Nat} (hs : start ≤ n) (he : n < stop)
    (him : im[n]? = some o) (ho : o < mask.length) :
    (markRange im mask start stop)[o]? = some true := by
  have hmem : n ∈ List.range' start (stop - start) := by
    rw [List.mem_range'_1]
    omega
  obtain ⟨l1, l2, hsplit⟩ := List.append_of_mem hmem
  simp only [markRange, hsplit, List.foldl_append, List.foldl_cons]
  apply foldl_pres (markIdx im) (fun m => m[o]? = some true)
    (fun st a hst => markIdx_mono a hst)
  have hlen : (l1.foldl (markIdx im) mask).length = mask.length :=
    foldl_pres (markIdx im) (fun m => m.length = mask.length)
      (fun st a hst => by
        show (markIdx im st a).length = mask.length
        rw [markIdx_length]
        exact hst) _ mask rfl
  simp only [markIdx, him]
  rw [List.getElem?_set_self]
  omega

theorem applyEvent_mask_length (im : List Nat)
    (st : List Bool × Bool) (ev : MdEvent × Nat × Nat) :
    ((applyEvent im st ev).1).length = st.1.length := by
  simp only [applyEvent]
  split
  · rw [markRange_length]
  · rfl

theorem applyEvent_mono {im : List Nat} {o : Nat}
    (st : List Bool × Bool) (ev : MdEvent × Nat × Nat)
    (h : st.1[o]? = some true) :
    ((applyEvent im st ev).1)[o]? = some true := by
  simp only [applyEvent]
  split
  · exact markRange_mono _ _ h
  · exact h

/-- Any event whose `should_mark` is true regardless of the fenced flag
marks its whole range through the index map. -/
theorem mask_marks_event (text : List Nat)
    (events : List (MdEvent × Nat × Nat)) (ev : MdEvent) (s e n o : Nat)
    (hev : (ev, s, e) ∈ events)
    (hmark : ∀ f : Bool, (shouldMark ev f).1 = true)
    (hs : s ≤ n) (hne : n < e)
    (ho : ((dedent_with_index_map text).2)[n]? = some o) :
    (markdown_code_mask text events)[o]? = some true := by
  have holt : o < text.length :=
    dedent_indexMap_lt text o (List.getElem?_mem ho)
  obtain ⟨l1, l2, hsplit⟩ := List.append_of_mem hev
  simp only [markdown_code_mask, hsplit, List.foldl_append, List.foldl_cons]
  apply foldl_pres (applyEvent ((dedent_with_index_map text).2))
    (fun st : List Bool × Bool => st.1[o]? = some true)
    (fun st a hst => applyEvent_mono st a hst)
  have hlen : ((l1.foldl (applyEvent ((dedent_with_index_map text).2))
      (List.replicate text.length false, false)).1).length
        = text.length :=
    foldl_pres (applyEvent ((dedent_with_index_map text).2))
      (fun st : List Bool × Bool => st.1.length = text.length)
      (fun st a hst => by
        show ((applyEvent ((dedent_with_index_map text).2) st a).1).length
          = text.length
        rw [applyEvent_mask_length]
        exact hst) _ _
      (by simp)
  simp only [applyEvent, hmark, if_true]
  exact markRange_marks hs hne ho (by omega)

/-- **C1**: every byte of the original text that the index map associates
with a position inside a fenced-code-block event range is marked true by
`markdown_code_mask`, so `is_code_index` reports it as code and marker
recognition skips it. -/
theorem fenced_code_block_masked (text : List Nat)
    (events : List (MdEvent × Nat × Nat)) (s e n o : Nat)
    (hev : (MdEvent.startCodeBlock CodeBlockKind.fenced, s, e) ∈ events)
    (hs : s ≤ n) (hne : n < e)
    (ho : ((dedent_with_index_map text).2)[n]? = some o) :
    (markdown_code_mask text events)[o]? = some true
    ∧ is_code_index o (markdown_code_mask text events) = true := by
  have h := mask_marks_event text events
    (MdEvent.startCodeBlock CodeBlockKind.fenced) s e n o hev
    (fun f => rfl) hs hne ho
  refine ⟨h, ?_⟩
  simp [is_code_index, h]

/-- **C1 witness**: the byte `x` inside the fenced block of
`"```\nx\n```\n"` is masked. -/
theorem fenced_code_block_masked_witness :
    (markdown_code_mask [96, 96, 96, 10, 120, 10, 96, 96, 96, 10]
      [(MdEvent.startCodeBlock CodeBlockKind.fenced, 0, 10),
        (MdEvent.endCodeBlock, 0, 10)])[4]? = some true
    ∧ is_code_index 4 (markdown_code_mask
        [96, 96, 96, 10, 120, 10, 96, 96, 96, 10]
        [(MdEvent.startCodeBlock CodeBlockKind.fenced, 0, 10),
          (MdEvent.endCodeBlock, 0, 10)]) = true :=
  fenced_code_block_masked [96, 96, 96, 10, 120, 10, 96, 96, 96, 10]
    [(MdEvent.startCodeBlock CodeBlockKind.fenced, 0, 10),
      (MdEvent.endCodeBlock, 0, 10)] 0 10 4 4
    (by decide) (by decide) (by decide) (by decide)

/-- **C3 counterexample**: for the Markdown text `` `r[impl x.y]` `` the
parser reports an inline `Code` event over the whole span, and the marker
byte at offset 1 IS marked true by `markdown_code_mask` — the claim says
those bytes are not marked. -/
theorem inline_code_not_masked_counterexample :
    is_code_index 1 (markdown_code_mask
      [96, 114, 91, 105, 109, 112, 108, 32, 120, 46, 121, 93, 96]
      [(MdEvent.code, 0, 13)]) = true := by decide

/-- **C3 amended**: bytes of an inline code span (`Event::Code` ranges)
ARE marked true by `markdown_code_mask`, exactly like fenced code, so the
mask excludes inline-code markers from recognition. -/
theorem inline_code_masked (text : List Nat)
    (events : List (MdEvent × Nat × Nat)) (s e n o : Nat)
    (hev : (MdEvent.code, s, e) ∈ events)
    (hs : s ≤ n) (hne : n < e)
    (ho : ((dedent_with_index_map text).2)[n]? = some o) :
    (markdown_code_mask text events)[o]? = some true
    ∧ is_code_index o (markdown_code_mask text events) = true := by
  have h := mask_marks_event text events MdEvent.code s e n o hev
    (fun f => rfl) hs hne ho
  refine ⟨h, ?_⟩
  simp [is_code_index, h]

/-- **C3 amended witness**: the marker byte of `` `r[impl x.y]` `` is
masked. -/
theorem inline_code_masked_witness :
    (markdown_code_mask [96, 114, 91, 105, 109, 112, 108, 32, 120, 46, 121, 93, 96]
      [(MdEvent.code, 0, 13)])[1]? = some true
    ∧ is_code_index 1 (markdown_code_mask
        [96, 114, 91, 105, 109, 112, 108, 32, 120, 46, 121, 93, 96]
        [(MdEvent.code, 0, 13)]) = true :=
  inline_code_masked [96, 114, 91, 105, 109, 112, 108, 32, 120, 46, 121, 93, 96]
    [(MdEvent.code, 0, 13)] 0 13 1 1
    (by decide) (by decide) (by decide) (by decide)

/-- **C10**: `dedent_with_index_map` returns an index map with exactly one
entry per normalized byte, strictly increasing, and mapping every
normalized byte back to the equal byte of the original text (so every
masked position corresponds to a genuine original byte). -/
theorem dedent_with_index_map_correct (text : List Nat) :
    ((dedent_with_index_map text).2).length
      = ((dedent_with_index_map text).1).length
    ∧ List.Pairwise (· < ·) (dedent_with_index_map text).2
    ∧ ∀ j, j < ((dedent_with_index_map text).2).length →
        ((dedent_with_index_map text).2).getD j 0 < text.length
        ∧ ((dedent_with_index_map text).1).getD j 0
            = text.getD (((dedent_with_index_map text).2).getD j 0) 0 := by
  obtain ⟨hlen, hpw, hmem, hval⟩ :=
    dedentGo_spec (minIndentOf (splitInclusive text)) (splitInclusive text) 0
  refine ⟨hlen, hpw, fun j hj => ⟨?_, ?_⟩⟩
  · exact dedent_indexMap_lt text _ (getD_mem_of_lt hj)
  · have := hval j hj
    rw [splitInclusive_flatten] at this
    simpa using this

/-- **C10 witness**: evaluated on the two-line indented text `"  a\n  b"`. -/
theorem dedent_with_index_map_correct_witness :
    ((dedent_with_index_map [32, 32, 97, 10, 32, 32, 98]).2).getD 0 0
        < ([32, 32, 97, 10, 32, 32, 98] : List Nat).length
    ∧ ((dedent_with_index_map [32, 32, 97, 10, 32, 32, 98]).1).getD 0 0
        = ([32, 32, 97, 10, 32, 32, 98] : List Nat).getD
            (((dedent_with_index_map [32, 32, 97, 10, 32, 32, 98]).2).getD 0 0) 0 :=
  (dedent_with_index_map_correct [32, 32, 97, 10, 32, 32, 98]).2.2 0 (by decide)

/-- A successful `findSub` locates a genuine occurrence: the pattern is a
prefix of the list dropped at the returned index. -/
theorem findSub_prefix (pat : List Char) :
    ∀ (l : List Char) (j : Nat), findSub pat l = some j → pat <+: l.drop j := by
  intro l
  induction l with
  | nil =>
    intro j h
    simp only [findSub] at h
    split at h
    · have hj : j = 0 := by
        cases h
        rfl
      subst hj
      have hpat : pat = [] := by
        simpa [List.isEmpty_iff] using (by assumption : pat.isEmpty = true)
      simp [hpat]
    · exact absurd h (by simp)
  | cons c rest ih =>
    intro j h
    simp only [findSub] at h
    split at h
    · have hj : j = 0 := by
        cases h
        rfl
      subst hj
      simpa using List.isPrefixOf_iff_prefix.mp (by assumption)
    · rcases hr : findSub pat rest with _ | j2
      · rw [hr] at h
        exact absurd h (by simp)
      · rw [hr] at h
        have hj : j = j2 + 1 := by
          simpa using h.symm
        subst hj
        rw [List.drop_succ_cons]
        exact ih j2 hr

/-- A successful `findSub` index never exceeds the list length. -/
theorem findSub_le_length (pat : List Char) :
    ∀ (l : List Char) (j : Nat), findSub pat l = some j → j ≤ l.length := by
  intro l
  induction l with
  | nil =>
    intro j h
    simp only [findSub] at h
    split at h
    · cases h
      exact Nat.le_refl 0
    · exact absurd h (by simp)
  | cons c rest ih =>
    intro j h
    simp only [findSub] at h
    split at h
    · cases h
      exact Nat.zero_le _
    · rcases hr : findSub pat rest with _ | j2
      · rw [hr] at h
        exact absurd h (by simp)
      · rw [hr] at h
        have hj : j = j2 + 1 := by
          simpa using h.symm
        subst hj
        have := ih j2 hr
        simp only [List.length_cons]
        omega

/-- **C2 counterexample**: applying the rename of `x.y` to the identical
name `x.y` over a file holding the single reference `r[impl x.y]` produces
one text edit, not zero. -/
theorem rename_identical_counterexample :
    (replacement_edits_for_file
      ['r', '[', 'i', 'm', 'p', 'l', ' ', 'x', '.', 'y', ']']
      ⟨['x', '.', 'y'], 1⟩
      (renderRuleId ⟨['x', '.', 'y'], 1⟩)).length = 1 := by decide

/-- **C2 amended**: renaming a rule id to its own rendering is a textual
no-op: every edit `replacement_edits_for_file` produces replaces exactly an
in-bounds occurrence of the rendered old id with identical text, so
applying the edits leaves the file unchanged (though the edit count can be
nonzero). -/
theorem rename_identical_noop (content : List Char) (oldId : RuleId)
    (e : REdit)
    (he : e ∈ replacement_edits_for_file content oldId (renderRuleId oldId)) :
    e.newText = (content.drop e.absStart).take (e.absEnd - e.absStart)
    ∧ e.absEnd ≤ content.length := by
  obtain ⟨r, hr, hf⟩ := List.mem_filterMap.mp he
  by_cases h1 : (r.verb = RefVerb.define ∨ r.reqId ≠ oldId)
  · rw [if_pos h1] at hf
    exact absurd hf (by simp)
  · rw [if_neg h1] at hf
    by_cases h2 : r.off + r.len ≤ content.length
    · rw [if_pos h2] at hf
      rcases hfind : findSub (renderRuleId oldId)
          ((content.drop r.off).take (r.off + r.len - r.off)) with _ | j
      · rw [hfind] at hf
        exact absurd hf (by simp)
      · rw [hfind] at hf
        have he2 : REdit.mk (r.off + j)
            (r.off + j + (renderRuleId oldId).length)
            (offsetToLineCol content (r.off + j)).1
            (offsetToLineCol content (r.off + j)).2
            (offsetToLineCol content
              (r.off + j + (renderRuleId oldId).length)).1
            (offsetToLineCol content
              (r.off + j + (renderRuleId oldId).length)).2
            (renderRuleId oldId) = e := by
          cases hf
          rfl
        subst he2
        have hpre := findSub_prefix (renderRuleId oldId) _ j hfind
        rw [List.drop_take, List.drop_drop] at hpre
        have hlenle := hpre.length_le
        simp only [List.length_take, List.length_drop] at hlenle
        have hpre2 : renderRuleId oldId <+: content.drop (r.off + j) :=
          hpre.trans (List.take_prefix _ _)
        have heqtake := List.prefix_iff_eq_take.mp hpre2
        constructor
        · show renderRuleId oldId
            = (content.drop (r.off + j)).take
                (r.off + j + (renderRuleId oldId).length - (r.off + j))
          have harith : r.off + j + (renderRuleId oldId).length - (r.off + j)
              = (renderRuleId oldId).length := by omega
          rw [harith]
          exact heqtake
        · show r.off + j + (renderRuleId oldId).length ≤ content.length
          have hjle := findSub_le_length (renderRuleId oldId) _ j hfind
          simp only [List.length_take, List.length_drop] at hjle
          omega
    · rw [if_neg h2] at hf
      exact absurd hf (by simp)

/-- **C2 amended witness**: the single no-op edit over `r[impl x.y]`
replaces `x.y` at offsets 7–10 with itself. -/
theorem rename_identical_noop_witness :
    (⟨7, 10, 0, 7, 0, 10, ['x', '.', 'y']⟩ : REdit).newText
      = ((['r', '[', 'i', 'm', 'p', 'l', ' ', 'x', '.', 'y', ']']
          : List Char).drop
          (⟨7, 10, 0, 7, 0, 10, ['x', '.', 'y']⟩ : REdit).absStart).take
          ((⟨7, 10, 0, 7, 0, 10, ['x', '.', 'y']⟩ : REdit).absEnd
            - (⟨7, 10, 0, 7, 0, 10, ['x', '.', 'y']⟩ : REdit).absStart)
    ∧ (⟨7, 10, 0, 7, 0, 10, ['x', '.', 'y']⟩ : REdit).absEnd
        ≤ (['r', '[', 'i', 'm', 'p', 'l', ' ', 'x', '.', 'y', ']']
            : List Char).length :=
  rename_identical_noop
    ['r', '[', 'i', 'm', 'p', 'l', ' ', 'x', '.', 'y', ']']
    ⟨['x', '.', 'y'], 1⟩
    ⟨7, 10, 0, 7, 0, 10, ['x', '.', 'y']⟩ (by decide)

/-- **C7 witness**: a surviving path of a concrete batch is not a temp
artifact. -/
theorem temp_artifact_classification_witness :
    is_temporary_edit_artifact [['s'], ['a', '.', 'r', 's']] = false :=
  temp_artifact_classification.2 (fun _ => true) (fun _ => true)
    [[['s'], ['a', '.', 'r', 's']], [['b', '.', 's', 'w', 'p']]]
    [['s'], ['a', '.', 'r', 's']] (by decide)

end Tracey
